import Mathlib

/-!
Shallow embedding of the scoped value-reference table of `v8go`
(`struct V8GoContext` in src/context.cc / src/v8go.hh), the core data
structure this repository's spec describes: an append-only, scope-tagged
table of engine values plus a stack of scope checkpoints.

Modelling conventions:
* The table's slot type `Local<Value>` (a V8 engine handle) is an abstract
  type parameter `V`; slot identity is modelled by equality in `V`.
* `ValueScope` and `ValueIndex` are `uint32_t` in src/v8go.h.  The epoch
  counter `_latestScope` is incremented on every `pushValueScope` for the
  whole lifetime of the context, so its 32-bit wraparound is reachable by a
  long enough sequence of operations; the model therefore keeps the
  `% 2^32` of the increment (`scopeMod`).  Table indices, by contrast, are
  bounded by the number of simultaneously live `Persistent` slots, which
  can never approach 2^32; the `uint32_t(_values.size())` casts are
  modelled as plain naturals.
* `std::vector` is modelled as `List` with the back of the vector at the
  tail of the list for `_values`, while the checkpoint stack `_savedScopes`
  is kept with its back (the most recently pushed checkpoint) at the HEAD
  of the list, so that the reverse iteration in `getValue` and the
  `back`/`pop_back` in `popValueScope` are plain head operations.
* `getValue` returns `Option V`: `none` models the fall-through branch of
  `V8GoContext::getValue` (context.cc lines 51-53) that prints the
  "ILLEGAL USE OF OBSOLETE v8go.Value" diagnostic on stderr and returns
  `v8::Undefined(iso)`, the engine's safe default; `some v` models
  returning the retained handle `_values[ref.index].Get(iso)`.
* `std::vector::resize` in `popValueScope` is modelled by `resizeTo`,
  which truncates and, like `resize`, pads with default-constructed
  elements if asked to grow (it never grows in any reachable state).
-/

namespace V8go

/-- `2 ^ 32`: the modulus of the `uint32_t` scope counter (`ValueScope`
in src/v8go.h). -/
def scopeMod : Nat := 4294967296

/-- `ValueRef` (src/v8go.h): a `{scope, index}` pair handed to the host. -/
structure ValueRef where
  scope : Nat
  index : Nat
deriving DecidableEq, Repr, Inhabited

/-- The state of `struct V8GoContext` (src/v8go.hh lines 100-102):
`_values`, `_savedScopes` (head of the list = back of the C++ vector =
most recently pushed checkpoint), `_latestScope` and `_curScope`. -/
structure V8GoContext (V : Type) where
  values : List V
  savedScopes : List ValueRef
  latestScope : Nat
  curScope : Nat
deriving DecidableEq

/-- A freshly constructed context: empty table, no checkpoints,
`_latestScope = 1, _curScope = 1` (src/v8go.hh line 102). -/
def initContext {V : Type} : V8GoContext V :=
  { values := [], savedScopes := [], latestScope := 1, curScope := 1 }

/-- `V8GoContext::addValue` (context.cc lines 26-35): append one slot
retaining the handle, return `{_curScope, size-before-append}`. -/
def addValue {V : Type} (ctx : V8GoContext V) (v : V) : ValueRef × V8GoContext V :=
  (⟨ctx.curScope, ctx.values.length⟩, { ctx with values := ctx.values ++ [v] })

/-- The checkpoint walk inside `V8GoContext::getValue` (context.cc lines
39-45): starting from `_curScope`, walk the checkpoint stack from the most
recently pushed checkpoint outward; stop at the first checkpoint whose
saved index is `≤ ref.index`, otherwise adopt its saved scope and keep
walking. -/
def scopeWalk : List ValueRef → Nat → Nat → Nat
  | [], cur, _ => cur
  | c :: rest, cur, i => if c.index ≤ i then cur else scopeWalk rest c.scope i

/-- `V8GoContext::getValue` (context.cc lines 37-54): bounds check, then
scope check against the checkpoint walk; `some` = return the retained
slot, `none` = print the obsolete-value diagnostic and return
`v8::Undefined`. -/
def getValue {V : Type} (ctx : V8GoContext V) (ref : ValueRef) : Option V :=
  if ref.index < ctx.values.length then
    if ref.scope = scopeWalk ctx.savedScopes ctx.curScope ref.index then
      ctx.values[ref.index]?
    else
      none
  else
    none

/-- `V8GoContext::pushValueScope` (context.cc lines 56-60): save
`{_curScope, _values.size()}` on the checkpoint stack, then
`_curScope = ++_latestScope` (32-bit increment) and return it. -/
def pushValueScope {V : Type} (ctx : V8GoContext V) : Nat × V8GoContext V :=
  let newScope := (ctx.latestScope + 1) % scopeMod
  (newScope,
    { ctx with
      savedScopes := ⟨ctx.curScope, ctx.values.length⟩ :: ctx.savedScopes
      latestScope := newScope
      curScope := newScope })

/-- `std::vector::resize`: truncate to `n`, padding with
default-constructed elements when `n` exceeds the current size. -/
def resizeTo {V : Type} [Inhabited V] (l : List V) (n : Nat) : List V :=
  l.take n ++ List.replicate (n - l.length) default

/-- `V8GoContext::popValueScope` (context.cc lines 62-71): fail (state
untouched) unless `scopeID == _curScope` and the checkpoint stack is
non-empty; on success pop the checkpoint, restore `_curScope` to its saved
scope and resize the table to its saved index. -/
def popValueScope {V : Type} [Inhabited V] (ctx : V8GoContext V) (scopeID : Nat) :
    Bool × V8GoContext V :=
  if scopeID = ctx.curScope ∧ ctx.savedScopes ≠ [] then
    let r := ctx.savedScopes.headI
    (true,
      { ctx with
        savedScopes := ctx.savedScopes.tail
        curScope := r.scope
        values := resizeTo ctx.values r.index })
  else
    (false, ctx)

theorem popValueScope_pos {V : Type} [Inhabited V] (ctx : V8GoContext V) (sid : Nat)
    (h : sid = ctx.curScope ∧ ctx.savedScopes ≠ []) :
    popValueScope ctx sid =
      (true,
        { ctx with
          savedScopes := ctx.savedScopes.tail
          curScope := ctx.savedScopes.headI.scope
          values := resizeTo ctx.values ctx.savedScopes.headI.index }) :=
  if_pos h

theorem popValueScope_neg {V : Type} [Inhabited V] (ctx : V8GoContext V) (sid : Nat)
    (h : ¬(sid = ctx.curScope ∧ ctx.savedScopes ≠ [])) :
    popValueScope ctx sid = (false, ctx) :=
  if_neg h

/-! ## Operation traces over the table -/

/-- One host-visible table operation. -/
inductive Op (V : Type) where
  | add (v : V)
  | push
  | pop (scopeID : Nat)

/-- Apply one operation to the state (discarding the returned value). -/
def step {V : Type} [Inhabited V] (ctx : V8GoContext V) : Op V → V8GoContext V
  | .add v => (addValue ctx v).2
  | .push => (pushValueScope ctx).2
  | .pop sid => (popValueScope ctx sid).2

/-- Run a list of operations from a state. -/
def run {V : Type} [Inhabited V] (ctx : V8GoContext V) (ops : List (Op V)) : V8GoContext V :=
  ops.foldl step ctx

/-- States reachable from a freshly constructed context by some sequence
of `addValue` / `pushValueScope` / `popValueScope` calls. -/
def Reachable {V : Type} [Inhabited V] (ctx : V8GoContext V) : Prop :=
  ∃ ops : List (Op V), ctx = run initContext ops

/-- Number of `push` operations in a trace. -/
def pushCount {V : Type} : List (Op V) → Nat
  | [] => 0
  | Op.add _ :: rest => pushCount rest
  | Op.push :: rest => pushCount rest + 1
  | Op.pop _ :: rest => pushCount rest

/-! ## Basic facts about the operations -/

theorem resizeTo_length {V : Type} [Inhabited V] (l : List V) (n : Nat) :
    (resizeTo l n).length = n := by
  simp only [resizeTo, List.length_append, List.length_take, List.length_replicate]
  omega

theorem resizeTo_of_le {V : Type} [Inhabited V] (l : List V) (n : Nat)
    (h : n ≤ l.length) : resizeTo l n = l.take n := by
  simp [resizeTo, Nat.sub_eq_zero_of_le h]

theorem resizeTo_length_self {V : Type} [Inhabited V] (l : List V) :
    resizeTo l l.length = l := by
  simp [resizeTo]

theorem resizeTo_getElem? {V : Type} [Inhabited V] (l : List V) (n i : Nat)
    (hi : i < n) (hl : i < l.length) : (resizeTo l n)[i]? = l[i]? := by
  rw [resizeTo, List.getElem?_append_left (by simp; omega), List.getElem?_take_of_lt hi]

theorem run_cons {V : Type} [Inhabited V] (ctx : V8GoContext V) (op : Op V)
    (ops : List (Op V)) : run ctx (op :: ops) = run (step ctx op) ops := rfl

theorem run_nil {V : Type} [Inhabited V] (ctx : V8GoContext V) : run ctx [] = ctx := rfl

/-! ## C4: addValue appends one slot and cannot fail -/

/-- C4: for every engine handle and every table state, `addValue` appends
exactly one new slot retaining that handle, returns
`{scope: currentScope, index: length-before-append}`, and has no failure
mode: it is a total function that always extends the table by one slot and
touches nothing else. -/
theorem addValue_spec {V : Type} (ctx : V8GoContext V) (v : V) :
    (addValue ctx v).1 = ⟨ctx.curScope, ctx.values.length⟩ ∧
    (addValue ctx v).2.values = ctx.values ++ [v] ∧
    (addValue ctx v).2.values.length = ctx.values.length + 1 ∧
    (addValue ctx v).2.values[ctx.values.length]? = some v ∧
    (addValue ctx v).2.savedScopes = ctx.savedScopes ∧
    (addValue ctx v).2.curScope = ctx.curScope ∧
    (addValue ctx v).2.latestScope = ctx.latestScope :=
  ⟨rfl, rfl, by simp [addValue], by simp [addValue], rfl, rfl, rfl⟩

/-! ## C3: popValueScope succeeds only in strict stack order, and failure
changes nothing -/

/-- C3: `popValueScope scopeID` succeeds iff `scopeID` equals the current
scope and the checkpoint stack is non-empty; on success it pops the
checkpoint, restores the current scope to the checkpoint's saved scope,
and truncates the table to the checkpoint's saved length; on failure it
returns false and leaves the entire state unchanged. -/
theorem popValueScope_spec {V : Type} [Inhabited V] (ctx : V8GoContext V) (sid : Nat) :
    ((popValueScope ctx sid).1 = true ↔ sid = ctx.curScope ∧ ctx.savedScopes ≠ []) ∧
    (∀ r rest, ctx.savedScopes = r :: rest → sid = ctx.curScope →
      (popValueScope ctx sid).2.savedScopes = rest ∧
      (popValueScope ctx sid).2.curScope = r.scope ∧
      (popValueScope ctx sid).2.values.length = r.index ∧
      (popValueScope ctx sid).2.latestScope = ctx.latestScope ∧
      (r.index ≤ ctx.values.length →
        (popValueScope ctx sid).2.values = ctx.values.take r.index)) ∧
    ((popValueScope ctx sid).1 = false → (popValueScope ctx sid).2 = ctx) := by
  refine ⟨?_, ?_, ?_⟩
  · by_cases h : sid = ctx.curScope ∧ ctx.savedScopes ≠ []
    · rw [popValueScope_pos ctx sid h]
      exact iff_of_true rfl h
    · rw [popValueScope_neg ctx sid h]
      exact iff_of_false (by simp) h
  · intro r rest hsaved hsid
    have h : sid = ctx.curScope ∧ ctx.savedScopes ≠ [] := ⟨hsid, by simp [hsaved]⟩
    rw [popValueScope_pos ctx sid h, hsaved]
    exact ⟨rfl, rfl, resizeTo_length _ _, rfl, fun hle => resizeTo_of_le _ _ hle⟩
  · intro hfail
    by_cases h : sid = ctx.curScope ∧ ctx.savedScopes ≠ []
    · rw [popValueScope_pos ctx sid h] at hfail
      cases hfail
    · rw [popValueScope_neg ctx sid h]

/-- C3 witness: concrete success case (state reached by one push) and
concrete failure case (wrong id leaves the state untouched). -/
theorem popValueScope_spec_witness :
    (popValueScope (⟨[], [⟨1, 0⟩], 2, 2⟩ : V8GoContext Nat) 2).1 = true ∧
    (popValueScope (⟨[], [⟨1, 0⟩], 2, 2⟩ : V8GoContext Nat) 2).2.curScope = 1 ∧
    (popValueScope (⟨[], [⟨1, 0⟩], 2, 2⟩ : V8GoContext Nat) 1).2 =
      (⟨[], [⟨1, 0⟩], 2, 2⟩ : V8GoContext Nat) :=
  ⟨(popValueScope_spec (⟨[], [⟨1, 0⟩], 2, 2⟩ : V8GoContext Nat) 2).1.mpr
      ⟨rfl, by decide⟩,
    ((popValueScope_spec (⟨[], [⟨1, 0⟩], 2, 2⟩ : V8GoContext Nat) 2).2.1
      ⟨1, 0⟩ [] rfl rfl).2.1,
    (popValueScope_spec (⟨[], [⟨1, 0⟩], 2, 2⟩ : V8GoContext Nat) 1).2.2 (by decide)⟩

/-! ## C1: a failed validity check yields the safe default, without
dereferencing the slot -/

/-- C1: whenever the two-part validity check of `getValue` fails (index
out of bounds, or scope different from the scope the checkpoint walk
records for that index), `getValue` takes the diagnostic branch
(context.cc lines 51-53: log "ILLEGAL USE OF OBSOLETE v8go.Value" and
return `v8::Undefined`, modelled as `none`); moreover the result is the
same for any table contents of the same length, i.e. the underlying slot
is never dereferenced on this path. -/
theorem getValue_obsolete_safe {V : Type} (ctx : V8GoContext V) (ref : ValueRef)
    (h : ¬(ref.index < ctx.values.length ∧
           ref.scope = scopeWalk ctx.savedScopes ctx.curScope ref.index)) :
    getValue ctx ref = none ∧
    ∀ vs : List V, vs.length = ctx.values.length →
      getValue { ctx with values := vs } ref = none := by
  push_neg at h
  constructor
  · by_cases hi : ref.index < ctx.values.length
    · simp [getValue, hi, h hi]
    · simp [getValue, hi]
  · intro vs hvs
    by_cases hi : ref.index < ctx.values.length
    · simp [getValue, hvs, hi, h hi]
    · simp [getValue, hvs, hi]

/-- C1 witness: an out-of-scope reference (scope 2 against a table whose
only slot belongs to scope 1) resolves to the safe default. -/
theorem getValue_obsolete_safe_witness :
    getValue (⟨[5], [], 1, 1⟩ : V8GoContext Nat) ⟨2, 0⟩ = none :=
  (getValue_obsolete_safe (⟨[5], [], 1, 1⟩ : V8GoContext Nat) ⟨2, 0⟩ (by decide)).1

/-! ## C8: the concrete scenario of spec section 8 -/

/-- State and reference after `addValue(A)` on a fresh context. -/
def c8AfterAddA (A : Nat) : ValueRef × V8GoContext Nat :=
  addValue initContext A

/-- ... then `pushValueScope()`. -/
def c8AfterPush (A : Nat) : Nat × V8GoContext Nat :=
  pushValueScope (c8AfterAddA A).2

/-- ... then `addValue(B)`. -/
def c8AfterAddB (A B : Nat) : ValueRef × V8GoContext Nat :=
  addValue (c8AfterPush A).2 B

/-- ... then `popValueScope(2)`. -/
def c8AfterPop (A B : Nat) : Bool × V8GoContext Nat :=
  popValueScope (c8AfterAddB A B).2 2

/-- The scenario exactly as the spec states it, including
`addValue(B) → ref {2,0}`. -/
def C8Claim : Prop :=
  ∀ A B : Nat,
    (c8AfterAddA A).1 = ⟨1, 0⟩ ∧
    (c8AfterPush A).1 = 2 ∧
    (c8AfterAddB A B).1 = ⟨2, 0⟩ ∧
    getValue (c8AfterAddB A B).2 ⟨1, 0⟩ = some A ∧
    (c8AfterPop A B).1 = true ∧
    getValue (c8AfterPop A B).2 ⟨2, 0⟩ = none ∧
    getValue (c8AfterPop A B).2 ⟨1, 0⟩ = some A

/-- C8 counterexample: the scenario fails at the third step: after
`addValue(A)` the table already has one slot, so `addValue(B)` appends at
absolute index 1 and returns `{2,1}`, not `{2,0}` (indices are positions
in the whole table, not per-scope counters: context.cc line 27). -/
theorem c8Claim_false : ¬C8Claim := fun h =>
  absurd (h 0 0).2.2.1 (by decide)

/-- C8 amended: same scenario, with `addValue(B)` returning `{2,1}`: on an
empty table, `addValue(A) → {1,0}`; `pushValueScope() → 2`;
`addValue(B) → {2,1}`; `resolve {1,0}` succeeds; `popValueScope 2 → true`;
afterwards `resolve {2,1}` fails as obsolete while `resolve {1,0}` still
succeeds. -/
theorem c8_scenario (A B : Nat) :
    (c8AfterAddA A).1 = ⟨1, 0⟩ ∧
    (c8AfterPush A).1 = 2 ∧
    (c8AfterAddB A B).1 = ⟨2, 1⟩ ∧
    getValue (c8AfterAddB A B).2 ⟨1, 0⟩ = some A ∧
    getValue (c8AfterAddB A B).2 ⟨2, 1⟩ = some B ∧
    (c8AfterPop A B).1 = true ∧
    getValue (c8AfterPop A B).2 ⟨2, 1⟩ = none ∧
    getValue (c8AfterPop A B).2 ⟨1, 0⟩ = some A :=
  ⟨rfl, rfl, rfl, rfl, rfl, rfl, rfl, rfl⟩

/-! ## C10: NewIsolate seeds the internal context with the four
primitives -/

/-- The four V8 primitive values pre-registered by `NewIsolate`
(isolate.cc lines 37-40). -/
inductive JSPrim where
  | undefined
  | null
  | boolean (b : Bool)
deriving DecidableEq, Repr, Inhabited

/-- `NewIsolateResult` (src/v8go.h lines 155-159), restricted to the parts
the reference table determines. -/
structure NewIsolateResult where
  internalContext : V8GoContext JSPrim
  undefinedVal : ValueRef
  nullVal : ValueRef
  falseVal : ValueRef
  trueVal : ValueRef

/-- `NewIsolate` (isolate.cc lines 22-42): create the isolate's internal
context (a freshly constructed `V8GoContext`) and add Undefined, Null,
false and true to its table, in that order. -/
def NewIsolate : NewIsolateResult :=
  let r1 := addValue (initContext : V8GoContext JSPrim) JSPrim.undefined
  let r2 := addValue r1.2 JSPrim.null
  let r3 := addValue r2.2 (JSPrim.boolean false)
  let r4 := addValue r3.2 (JSPrim.boolean true)
  ⟨r4.2, r1.1, r2.1, r3.1, r4.1⟩

/-- C10: `NewIsolate` builds its internal context from a fresh table
(current scope 1, no checkpoints, exactly the four seeded slots) and
returns the references `{1,0}`, `{1,1}`, `{1,2}`, `{1,3}` for undefined,
null, false and true, each of which resolves in the internal context to
the corresponding engine primitive. -/
theorem newIsolate_spec :
    NewIsolate.undefinedVal = ⟨1, 0⟩ ∧
    NewIsolate.nullVal = ⟨1, 1⟩ ∧
    NewIsolate.falseVal = ⟨1, 2⟩ ∧
    NewIsolate.trueVal = ⟨1, 3⟩ ∧
    NewIsolate.internalContext.curScope = 1 ∧
    NewIsolate.internalContext.savedScopes = [] ∧
    NewIsolate.internalContext.values.length = 4 ∧
    getValue NewIsolate.internalContext ⟨1, 0⟩ = some JSPrim.undefined ∧
    getValue NewIsolate.internalContext ⟨1, 1⟩ = some JSPrim.null ∧
    getValue NewIsolate.internalContext ⟨1, 2⟩ = some (JSPrim.boolean false) ∧
    getValue NewIsolate.internalContext ⟨1, 3⟩ = some (JSPrim.boolean true) := by
  decide

/-! ## C6: N pushes followed by N LIFO pops restore the table -/

/-- Push `n` nested scopes, then pop them in strict LIFO order, each pop
called with the id the matching push returned.  The boolean collects
whether every pop succeeded. -/
def lifoRoundTrip {V : Type} [Inhabited V] : V8GoContext V → Nat → Bool × V8GoContext V
  | ctx, 0 => (true, ctx)
  | ctx, n + 1 =>
    let p := pushValueScope ctx
    let q := lifoRoundTrip p.2 n
    let w := popValueScope q.2 p.1
    (q.1 && w.1, w.2)

theorem lifoRoundTrip_eq {V : Type} [Inhabited V] (n : Nat) (ctx : V8GoContext V) :
    (lifoRoundTrip ctx n).1 = true ∧
    (lifoRoundTrip ctx n).2 =
      { ctx with latestScope := (lifoRoundTrip ctx n).2.latestScope } := by
  induction n generalizing ctx with
  | zero => exact ⟨rfl, rfl⟩
  | succ n ih =>
    obtain ⟨ihok, iheq⟩ := ih (pushValueScope ctx).2
    simp only [lifoRoundTrip, ihok, Bool.true_and]
    rw [iheq]
    rw [popValueScope_pos
      { values := (pushValueScope ctx).2.values
        savedScopes := (pushValueScope ctx).2.savedScopes
        latestScope := (lifoRoundTrip (pushValueScope ctx).2 n).2.latestScope
        curScope := (pushValueScope ctx).2.curScope }
      (pushValueScope ctx).1
      ⟨rfl, by simp [pushValueScope]⟩]
    simp [pushValueScope, resizeTo_length_self]

/-- C6: for all N ≥ 0 and any starting state, pushing N scopes and then
popping them in strict LIFO order (each pop given the id its matching push
returned) succeeds at every pop and returns the table to its exact
pre-push contents (hence its pre-push length), its pre-push current scope
id, and its pre-push checkpoint stack. -/
theorem lifoRoundTrip_restores {V : Type} [Inhabited V] (ctx : V8GoContext V) (n : Nat) :
    (lifoRoundTrip ctx n).1 = true ∧
    (lifoRoundTrip ctx n).2.values = ctx.values ∧
    (lifoRoundTrip ctx n).2.values.length = ctx.values.length ∧
    (lifoRoundTrip ctx n).2.curScope = ctx.curScope ∧
    (lifoRoundTrip ctx n).2.savedScopes = ctx.savedScopes := by
  obtain ⟨hok, heq⟩ := lifoRoundTrip_eq n ctx
  rw [heq]
  exact ⟨hok, rfl, rfl, rfl, rfl⟩

/-! ## Invariants of reachable states -/

/-- Checkpoint indexes never decrease from the outermost checkpoint to the
most recent one (equivalently: they are non-increasing from the head of
`savedScopes` outward), and never exceed the table length. -/
def IndexInv {V : Type} (ctx : V8GoContext V) : Prop :=
  ctx.savedScopes.Pairwise (fun a b => b.index ≤ a.index) ∧
  ∀ c ∈ ctx.savedScopes, c.index ≤ ctx.values.length

theorem indexInv_step {V : Type} [Inhabited V] (ctx : V8GoContext V) (op : Op V)
    (h : IndexInv ctx) : IndexInv (step ctx op) := by
  obtain ⟨hp, hb⟩ := h
  cases op with
  | add v =>
    refine ⟨hp, fun c hc => ?_⟩
    simp only [step, addValue, List.length_append, List.length_singleton]
    exact Nat.le_succ_of_le (hb c hc)
  | push =>
    refine ⟨List.pairwise_cons.mpr ⟨fun b hbmem => hb b hbmem, hp⟩, ?_⟩
    intro c hcmem
    rcases List.mem_cons.mp hcmem with rfl | hcmem
    · exact Nat.le_refl _
    · exact hb c hcmem
  | pop sid =>
    by_cases hc : sid = ctx.curScope ∧ ctx.savedScopes ≠ []
    · obtain ⟨r, rest, hs⟩ := List.exists_cons_of_ne_nil hc.2
      have heq := popValueScope_pos ctx sid hc
      simp only [step, heq, hs, List.headI, List.tail_cons]
      rw [hs] at hp
      rcases List.pairwise_cons.mp hp with ⟨hr, hrest⟩
      refine ⟨hrest, fun c hcmem => ?_⟩
      rw [resizeTo_length]
      exact hr c hcmem
    · have heq := popValueScope_neg ctx sid hc
      simp only [step, heq]
      exact ⟨hp, hb⟩

theorem indexInv_run {V : Type} [Inhabited V] (ops : List (Op V)) (ctx : V8GoContext V)
    (h : IndexInv ctx) : IndexInv (run ctx ops) := by
  induction ops generalizing ctx with
  | nil => exact h
  | cons op rest ih => exact ih (step ctx op) (indexInv_step ctx op h)

theorem reachable_indexInv {V : Type} [Inhabited V] (ctx : V8GoContext V)
    (h : Reachable ctx) : IndexInv ctx := by
  obtain ⟨ops, rfl⟩ := h
  exact indexInv_run ops initContext ⟨List.Pairwise.nil, by simp [initContext]⟩

/-- Scope-side invariant: checkpoint scopes strictly decrease from the
most recent checkpoint outward, every saved scope is below the current
scope, and the current scope never exceeds the epoch counter.  This holds
as long as the 32-bit epoch counter has not wrapped around. -/
def ScopeInv {V : Type} (ctx : V8GoContext V) : Prop :=
  ctx.savedScopes.Pairwise (fun a b => b.scope < a.scope) ∧
  (∀ c ∈ ctx.savedScopes, c.scope < ctx.curScope) ∧
  ctx.curScope ≤ ctx.latestScope

theorem scopeInv_step {V : Type} [Inhabited V] (ctx : V8GoContext V) (op : Op V)
    (h : ScopeInv ctx) (hroom : op = Op.push → ctx.latestScope + 1 < scopeMod) :
    ScopeInv (step ctx op) := by
  obtain ⟨hp, hlt, hle⟩ := h
  cases op with
  | add v => exact ⟨hp, hlt, hle⟩
  | push =>
    have hmod : (ctx.latestScope + 1) % scopeMod = ctx.latestScope + 1 :=
      Nat.mod_eq_of_lt (hroom rfl)
    simp only [step, pushValueScope, hmod]
    refine ⟨List.pairwise_cons.mpr ⟨fun b hbmem => hlt b hbmem, hp⟩, ?_, Nat.le_refl _⟩
    intro c hcmem
    rcases List.mem_cons.mp hcmem with rfl | hcmem
    · show ctx.curScope < ctx.latestScope + 1
      omega
    · have := hlt c hcmem
      show c.scope < ctx.latestScope + 1
      omega
  | pop sid =>
    by_cases hc : sid = ctx.curScope ∧ ctx.savedScopes ≠ []
    · obtain ⟨r, rest, hs⟩ := List.exists_cons_of_ne_nil hc.2
      have heq := popValueScope_pos ctx sid hc
      simp only [step, heq, hs, List.headI, List.tail_cons]
      rw [hs] at hp hlt
      rcases List.pairwise_cons.mp hp with ⟨hr, hrest⟩
      refine ⟨hrest, fun c hcmem => hr c hcmem, ?_⟩
      show r.scope ≤ ctx.latestScope
      have : r.scope < ctx.curScope := hlt r (List.mem_cons_self r rest)
      omega
    · have heq := popValueScope_neg ctx sid hc
      simp only [step, heq]
      exact ⟨hp, hlt, hle⟩

theorem step_latestScope_add {V : Type} [Inhabited V] (ctx : V8GoContext V) (v : V) :
    (step ctx (Op.add v)).latestScope = ctx.latestScope := rfl

theorem step_latestScope_pop {V : Type} [Inhabited V] (ctx : V8GoContext V) (sid : Nat) :
    (step ctx (Op.pop sid)).latestScope = ctx.latestScope := by
  by_cases hc : sid = ctx.curScope ∧ ctx.savedScopes ≠ []
  · simp only [step, popValueScope_pos ctx sid hc]
  · simp only [step, popValueScope_neg ctx sid hc]

theorem scopeInv_run {V : Type} [Inhabited V] (ops : List (Op V)) (ctx : V8GoContext V)
    (h : ScopeInv ctx) (hroom : ctx.latestScope + pushCount ops < scopeMod) :
    ScopeInv (run ctx ops) ∧
    (run ctx ops).latestScope = ctx.latestScope + pushCount ops := by
  induction ops generalizing ctx with
  | nil => exact ⟨h, rfl⟩
  | cons op rest ih =>
    cases op with
    | add v =>
      have := ih (step ctx (Op.add v))
        (scopeInv_step ctx (Op.add v) h (fun heq => by cases heq))
        (by rw [step_latestScope_add]; exact hroom)
      rw [run_cons]
      rw [step_latestScope_add] at this
      exact this
    | push =>
      have hpc : pushCount (Op.push :: rest) = pushCount rest + 1 := rfl
      have h1 : ctx.latestScope + 1 < scopeMod := by rw [hpc] at hroom; omega
      have hmod : (ctx.latestScope + 1) % scopeMod = ctx.latestScope + 1 :=
        Nat.mod_eq_of_lt h1
      have hlat : (step ctx Op.push).latestScope = ctx.latestScope + 1 := by
        simp [step, pushValueScope, hmod]
      have hroom2 : (step ctx Op.push).latestScope + pushCount rest < scopeMod := by
        rw [hlat]
        rw [hpc] at hroom
        omega
      have := ih (step ctx Op.push)
        (scopeInv_step ctx Op.push h (fun _ => h1)) hroom2
      rw [run_cons, hpc]
      rw [hlat] at this
      exact ⟨this.1, by omega⟩
    | pop sid =>
      have := ih (step ctx (Op.pop sid))
        (scopeInv_step ctx (Op.pop sid) h (fun heq => by cases heq))
        (by rw [step_latestScope_pop]; exact hroom)
      rw [run_cons]
      rw [step_latestScope_pop] at this
      exact this

theorem scopeInv_init {V : Type} : ScopeInv (initContext : V8GoContext V) :=
  ⟨List.Pairwise.nil, by simp [initContext], Nat.le_refl _⟩

/-! ## C2: characterisation of the scope recorded for an index -/

/-- The recorded scope exactly as the spec's words describe it: "the scope
of the innermost checkpoint whose saved length is ≤ `ref.index`, or the
table's root scope if no checkpoint qualifies" (the root scope of a table
is 1, the scope it is created with). -/
def specRecordedScope {V : Type} (ctx : V8GoContext V) (i : Nat) : Nat :=
  match ctx.savedScopes.find? (fun c => c.index ≤ i) with
  | some c => c.scope
  | none => 1

/-- C2 exactly as stated: for an in-bounds index, resolution succeeds with
the stored handle iff the reference's scope equals `specRecordedScope`. -/
def C2Claim : Prop :=
  ∀ ctx : V8GoContext Nat, Reachable ctx → ∀ ref : ValueRef,
    ∀ hi : ref.index < ctx.values.length,
      (getValue ctx ref = some (ctx.values.get ⟨ref.index, hi⟩) ↔
        ref.scope = specRecordedScope ctx ref.index)

/-- C2 counterexample: in the reachable state obtained by
`addValue 10; pushValueScope; addValue 20` (table `[10, 20]`, one
checkpoint `{scope 1, index 1}`, current scope 2), the reference `{2, 1}`
resolves successfully to `20` — the walk in `getValue` breaks at the first
checkpoint whose saved index is `≤ 1` and keeps the *current* scope 2 —
while the spec's rule names the scope *saved in* that checkpoint, 1, and
so wrongly predicts failure. -/
theorem c2Claim_false : ¬C2Claim := fun h =>
  absurd
    ((h (run initContext [Op.add 10, Op.push, Op.add 20])
        ⟨[Op.add 10, Op.push, Op.add 20], rfl⟩ ⟨2, 1⟩ (by decide)).mp (by decide))
    (by decide)

/-- The scope that `getValue`'s checkpoint walk actually records for index
`i`: the saved scope of the outermost checkpoint whose saved length
exceeds `i`, or the current scope if no checkpoint's saved length exceeds
`i`. -/
def recordedScope {V : Type} (ctx : V8GoContext V) (i : Nat) : Nat :=
  match (ctx.savedScopes.filter (fun c => i < c.index)).getLast? with
  | some c => c.scope
  | none => ctx.curScope

theorem scopeWalk_eq_filter (l : List ValueRef) (cur i : Nat)
    (hl : l.Pairwise (fun a b => b.index ≤ a.index)) :
    scopeWalk l cur i =
      match (l.filter (fun c => i < c.index)).getLast? with
      | some c => c.scope
      | none => cur := by
  induction l generalizing cur with
  | nil => rfl
  | cons c rest ih =>
    rcases List.pairwise_cons.mp hl with ⟨hhead, htail⟩
    by_cases hc : c.index ≤ i
    · have hfc : (decide (i < c.index)) = false := by
        simp only [decide_eq_false_iff_not]
        omega
      have hfrest : rest.filter (fun c => i < c.index) = [] := by
        rw [List.filter_eq_nil_iff]
        intro b hb
        have := hhead b hb
        simp only [decide_eq_true_eq]
        omega
      rw [show scopeWalk (c :: rest) cur i = cur from if_pos hc,
        List.filter_cons, hfc]
      simp [hfrest]
    · have hic : i < c.index := by omega
      have htc : (decide (i < c.index)) = true := by
        simp only [decide_eq_true_eq]
        exact hic
      rw [show scopeWalk (c :: rest) cur i = scopeWalk rest c.scope i from if_neg hc,
        ih c.scope htail, List.filter_cons, htc, if_pos rfl]
      match hfr : rest.filter (fun c => i < c.index) with
      | [] => rw [hfr]; rfl
      | d :: t =>
        rw [hfr, List.getLast?_cons_cons]
        cases hgl : (d :: t).getLast? with
        | none => simp at hgl
        | some e => rfl

theorem scopeWalk_eq_recordedScope {V : Type} (ctx : V8GoContext V) (i : Nat)
    (hl : ctx.savedScopes.Pairwise (fun a b => b.index ≤ a.index)) :
    scopeWalk ctx.savedScopes ctx.curScope i = recordedScope ctx i :=
  scopeWalk_eq_filter ctx.savedScopes ctx.curScope i hl

/-- C2 amended: for every reachable state and every reference with an
in-bounds index, resolution succeeds with the stored handle iff the
reference's scope equals the recorded scope for that index, where the
recorded scope is the *saved scope of the outermost checkpoint whose saved
length exceeds the index* — equivalently, the scope that became current
when the innermost checkpoint whose saved length is ≤ the index was pushed
— or the table's *current* scope if no checkpoint's saved length exceeds
the index. -/
theorem getValue_iff_recordedScope {V : Type} [Inhabited V] (ctx : V8GoContext V)
    (hr : Reachable ctx) (ref : ValueRef) (hi : ref.index < ctx.values.length) :
    getValue ctx ref = some (ctx.values.get ⟨ref.index, hi⟩) ↔
      ref.scope = recordedScope ctx ref.index := by
  have hwalk := scopeWalk_eq_recordedScope ctx ref.index (reachable_indexInv ctx hr).1
  rw [getValue, if_pos hi, hwalk]
  by_cases hs : ref.scope = recordedScope ctx ref.index
  · rw [if_pos hs]
    simp [hs, List.getElem?_eq_getElem hi, List.get_eq_getElem]
  · rw [if_neg hs]
    simp [hs]

/-- C2 amended, witness: the reference `{2, 1}` in the state built by
`addValue 10; pushValueScope; addValue 20` resolves to the stored `20`. -/
theorem getValue_iff_recordedScope_witness :
    getValue (run initContext [Op.add 10, Op.push, Op.add 20]) ⟨2, 1⟩ = some 20 :=
  (getValue_iff_recordedScope (run initContext [Op.add 10, Op.push, Op.add 20])
    ⟨[Op.add 10, Op.push, Op.add 20], rfl⟩ ⟨2, 1⟩ (by decide)).mpr (by decide)

/-! ## C9: shape of the checkpoint stack in reachable states -/

/-- C9 exactly as stated: in every reachable state the checkpoint stack is
strictly increasing from bottom to top (outermost to innermost, i.e.
strictly decreasing from the head of `savedScopes`) in *both* saved epoch
and saved table length. -/
def C9Claim : Prop :=
  ∀ ctx : V8GoContext Nat, Reachable ctx →
    ctx.savedScopes.Pairwise (fun a b => b.scope < a.scope ∧ b.index < a.index)

/-- C9 counterexample: two pushes in a row with no intervening `addValue`
(reachable state `run initContext [push, push]`) save two checkpoints with
the *same* length 0 (`{1,0}` then `{2,0}`), so the stack is not strictly
increasing in recorded length. -/
theorem c9Claim_false : ¬C9Claim := fun h => by
  have h2 := h (run initContext [Op.push, Op.push]) ⟨[Op.push, Op.push], rfl⟩
  revert h2
  decide

/-- C9 amended: in every state reachable by a trace of fewer than
`2^32 - 1` pushes (so that the 32-bit epoch counter never wraps around),
the checkpoint stack is strictly increasing from bottom to top in epoch
number and *non*-decreasing (not strictly increasing) in recorded
length. -/
theorem savedScopes_sorted {V : Type} [Inhabited V] (ops : List (Op V))
    (hops : pushCount ops + 2 ≤ scopeMod) :
    (run initContext ops).savedScopes.Pairwise (fun a b => b.scope < a.scope) ∧
    (run initContext ops).savedScopes.Pairwise (fun a b => b.index ≤ a.index) := by
  have hroom : (initContext : V8GoContext V).latestScope + pushCount ops < scopeMod := by
    simp only [initContext]
    omega
  exact ⟨(scopeInv_run ops initContext scopeInv_init hroom).1.1,
    (indexInv_run ops initContext
      ⟨List.Pairwise.nil, by simp [initContext]⟩).1⟩

/-- C9 amended, witness: after `push; addValue 3; push` the checkpoint
stack is `[{2,1}, {1,0}]`, strictly decreasing from the head in scope and
non-increasing in index. -/
theorem savedScopes_sorted_witness :
    (run initContext [Op.push, Op.add 3, Op.push]).savedScopes.Pairwise
      (fun a b => b.scope < a.scope) ∧
    (run initContext [Op.push, Op.add 3, Op.push]).savedScopes.Pairwise
      (fun a b => b.index ≤ a.index) :=
  savedScopes_sorted [Op.push, Op.add 3, Op.push] (by decide)

/-! ## C5: freshness of scope ids and permanence of obsolescence -/

/-- The scope ids returned by the `push` operations of a trace, in
order. -/
def pushedIds {V : Type} [Inhabited V] : V8GoContext V → List (Op V) → List Nat
  | _, [] => []
  | ctx, Op.add v :: rest => pushedIds (step ctx (Op.add v)) rest
  | ctx, Op.push :: rest => (pushValueScope ctx).1 :: pushedIds (step ctx Op.push) rest
  | ctx, Op.pop sid :: rest => pushedIds (step ctx (Op.pop sid)) rest

theorem pushedIds_add {V : Type} [Inhabited V] (ctx : V8GoContext V) (v : V)
    (rest : List (Op V)) :
    pushedIds ctx (Op.add v :: rest) = pushedIds (step ctx (Op.add v)) rest := rfl

theorem pushedIds_push {V : Type} [Inhabited V] (ctx : V8GoContext V)
    (rest : List (Op V)) :
    pushedIds ctx (Op.push :: rest) =
      (pushValueScope ctx).1 :: pushedIds (step ctx Op.push) rest := rfl

theorem pushedIds_pop {V : Type} [Inhabited V] (ctx : V8GoContext V) (sid : Nat)
    (rest : List (Op V)) :
    pushedIds ctx (Op.pop sid :: rest) = pushedIds (step ctx (Op.pop sid)) rest := rfl

/-- C5 exactly as stated: (a) along every trace, each push returns an
epoch strictly greater than every epoch returned before it; (b) once a pop
succeeds for a scope id, every reference carrying that id resolves to the
obsolete diagnostic in all subsequent states, whatever operations
follow. -/
def C5Claim : Prop :=
  (∀ ops : List (Op Nat), (pushedIds initContext ops).Pairwise (· < ·)) ∧
  (∀ (ops1 : List (Op Nat)) (sid : Nat) (ops2 : List (Op Nat)) (r : ValueRef),
    (popValueScope (run initContext ops1) sid).1 = true →
    r.scope = sid →
    getValue (run (popValueScope (run initContext ops1) sid).2 ops2) r = none)

/-- The ids returned by `k` consecutive pushes when the epoch counter
starts at `L`. -/
def pushIdSeq : Nat → Nat → List Nat
  | _, 0 => []
  | L, k + 1 => ((L + 1) % scopeMod) :: pushIdSeq ((L + 1) % scopeMod) k

theorem pushedIds_replicate {V : Type} [Inhabited V] (k : Nat) (ctx : V8GoContext V) :
    pushedIds ctx (List.replicate k Op.push) = pushIdSeq ctx.latestScope k := by
  induction k generalizing ctx with
  | zero => rfl
  | succ k ih =>
    rw [List.replicate_succ, pushedIds_push, ih]
    rfl

theorem pushIdSeq_getElem? :
    ∀ (k L j : Nat), j < k → (pushIdSeq L k)[j]? = some ((L + j + 1) % scopeMod)
  | k + 1, L, 0, _ => by simp [pushIdSeq]
  | k + 1, L, j + 1, h => by
    have ih := pushIdSeq_getElem? k ((L + 1) % scopeMod) j (by omega)
    rw [pushIdSeq, List.getElem?_cons_succ, ih]
    congr 1
    rw [show (L + 1) % scopeMod + j + 1 = (L + 1) % scopeMod + (j + 1) by omega,
      Nat.mod_add_mod]
    congr 1
    omega

theorem pairwise_of_getElem? {α : Type} {R : α → α → Prop} :
    ∀ (l : List α), l.Pairwise R → ∀ (i j : Nat) (a b : α),
      i < j → l[i]? = some a → l[j]? = some b → R a b
  | [], _, i, j, a, b, _, ha, _ => by simp at ha
  | x :: xs, hp, _, 0, a, b, hij, _, _ => absurd hij (by omega)
  | x :: xs, hp, 0, j + 1, a, b, _, ha, hb => by
    rw [List.getElem?_cons_zero] at ha
    injection ha with ha
    subst ha
    rw [List.getElem?_cons_succ] at hb
    have hbmem : b ∈ xs := by
      have := List.getElem?_eq_some_iff.mp hb
      obtain ⟨hlt, heq⟩ := this
      exact heq ▸ List.getElem_mem hlt
    exact (List.pairwise_cons.mp hp).1 b hbmem
  | x :: xs, hp, i + 1, j + 1, a, b, hij, ha, hb =>
    pairwise_of_getElem? xs (List.pairwise_cons.mp hp).2 i j a b (by omega)
      (by rwa [List.getElem?_cons_succ] at ha)
      (by rwa [List.getElem?_cons_succ] at hb)

/-- C5 counterexample: the epoch counter is a `uint32_t`, so after
`2^32 - 2` pushes it stands at `2^32 - 1` and the next push returns
`(2^32) % 2^32 = 0`, which is smaller than the id `2` returned by the very
first push: along the trace of `2^32 - 1` consecutive pushes the returned
ids are not strictly increasing, so scope ids do not grow monotonically
(and can eventually repeat) over an unbounded context lifetime. -/
theorem c5Claim_false : ¬C5Claim := by
  intro h
  have hmono := h.1 (List.replicate (scopeMod - 1) Op.push)
  rw [pushedIds_replicate (scopeMod - 1) initContext,
    show (initContext : V8GoContext Nat).latestScope = 1 from rfl] at hmono
  have h0 : (pushIdSeq 1 (scopeMod - 1))[0]? = some 2 := by
    rw [pushIdSeq_getElem? (scopeMod - 1) 1 0 (by norm_num [scopeMod])]
    norm_num [scopeMod]
  have h1 : (pushIdSeq 1 (scopeMod - 1))[scopeMod - 2]? = some 0 := by
    rw [pushIdSeq_getElem? (scopeMod - 1) 1 (scopeMod - 2) (by norm_num [scopeMod])]
    norm_num [scopeMod]
  have h2 := pairwise_of_getElem? _ hmono 0 (scopeMod - 2) 2 0
    (by norm_num [scopeMod]) h0 h1
  omega

theorem pushedIds_mono {V : Type} [Inhabited V] :
    ∀ (ops : List (Op V)) (ctx : V8GoContext V),
      ctx.latestScope + pushCount ops < scopeMod →
      (∀ x ∈ pushedIds ctx ops,
        ctx.latestScope < x ∧ x ≤ ctx.latestScope + pushCount ops) ∧
      (pushedIds ctx ops).Pairwise (· < ·) := by
  intro ops
  induction ops with
  | nil =>
    intro ctx _
    exact ⟨by simp [pushedIds], List.Pairwise.nil⟩
  | cons op rest ih =>
    intro ctx h
    cases op with
    | add v =>
      rw [pushedIds_add]
      have hlat : (step ctx (Op.add v)).latestScope = ctx.latestScope := rfl
      have hres := ih (step ctx (Op.add v)) (by rw [hlat]; exact h)
      rw [hlat] at hres
      exact ⟨fun x hx => hres.1 x hx, hres.2⟩
    | push =>
      rw [pushedIds_push]
      have hpc : pushCount (Op.push :: rest) = pushCount rest + 1 := rfl
      rw [hpc] at h
      have h1 : ctx.latestScope + 1 < scopeMod := by omega
      have hmod : (ctx.latestScope + 1) % scopeMod = ctx.latestScope + 1 :=
        Nat.mod_eq_of_lt h1
      have hid : (pushValueScope ctx).1 = ctx.latestScope + 1 := by
        simp [pushValueScope, hmod]
      have hlat : (step ctx Op.push).latestScope = ctx.latestScope + 1 := by
        simp [step, pushValueScope, hmod]
      have hres := ih (step ctx Op.push) (by rw [hlat]; omega)
      rw [hlat] at hres
      refine ⟨?_, ?_⟩
      · intro x hx
        rcases List.mem_cons.mp hx with rfl | hx
        · rw [hid, hpc]
          omega
        · have := hres.1 x hx
          rw [hpc]
          omega
      · refine List.pairwise_cons.mpr ⟨fun b hb => ?_, hres.2⟩
        have := hres.1 b hb
        rw [hid]
        omega
    | pop sid =>
      rw [pushedIds_pop]
      have hlat := step_latestScope_pop ctx sid
      have hres := ih (step ctx (Op.pop sid)) (by rw [hlat]; exact h)
      rw [hlat] at hres
      exact ⟨fun x hx => hres.1 x hx, hres.2⟩

/-- The checkpoint walk only ever produces the current scope or a scope
saved on the checkpoint stack. -/
theorem scopeWalk_mem :
    ∀ (l : List ValueRef) (cur i : Nat),
      scopeWalk l cur i = cur ∨ ∃ c ∈ l, scopeWalk l cur i = c.scope := by
  intro l
  induction l with
  | nil => exact fun cur i => Or.inl rfl
  | cons c rest ih =>
    intro cur i
    by_cases hc : c.index ≤ i
    · left
      exact if_pos hc
    · right
      have hw : scopeWalk (c :: rest) cur i = scopeWalk rest c.scope i := if_neg hc
      rcases ih c.scope i with h | ⟨d, hd, h⟩
      · exact ⟨c, List.mem_cons_self c rest, hw.trans h⟩
      · exact ⟨d, List.mem_cons_of_mem c hd, hw.trans h⟩

theorem getValue_none_of_not_live {V : Type} (ctx : V8GoContext V) (r : ValueRef)
    (h1 : r.scope ≠ ctx.curScope)
    (h2 : ∀ c ∈ ctx.savedScopes, r.scope ≠ c.scope) :
    getValue ctx r = none := by
  rw [getValue]
  by_cases hi : r.index < ctx.values.length
  · rw [if_pos hi]
    rcases scopeWalk_mem ctx.savedScopes ctx.curScope r.index with hw | ⟨c, hc, hw⟩
    · rw [if_neg (show ¬r.scope = scopeWalk ctx.savedScopes ctx.curScope r.index by
        rw [hw]; exact h1)]
    · rw [if_neg (show ¬r.scope = scopeWalk ctx.savedScopes ctx.curScope r.index by
        rw [hw]; exact h2 c hc)]
  · rw [if_neg hi]

/-- After a scope id has been retired, it is not the current scope, not on
the checkpoint stack, and not above the epoch counter. -/
def NotLive {V : Type} (sid : Nat) (ctx : V8GoContext V) : Prop :=
  ctx.curScope ≠ sid ∧ (∀ c ∈ ctx.savedScopes, c.scope ≠ sid) ∧ sid ≤ ctx.latestScope

theorem notLive_step {V : Type} [Inhabited V] (ctx : V8GoContext V) (op : Op V)
    (sid : Nat) (h : NotLive sid ctx)
    (hroom : op = Op.push → ctx.latestScope + 1 < scopeMod) :
    NotLive sid (step ctx op) := by
  obtain ⟨h1, h2, h3⟩ := h
  cases op with
  | add v => exact ⟨h1, h2, h3⟩
  | push =>
    have hmod : (ctx.latestScope + 1) % scopeMod = ctx.latestScope + 1 :=
      Nat.mod_eq_of_lt (hroom rfl)
    have hcur : (step ctx Op.push).curScope = ctx.latestScope + 1 := by
      simp [step, pushValueScope, hmod]
    have hlat : (step ctx Op.push).latestScope = ctx.latestScope + 1 := by
      simp [step, pushValueScope, hmod]
    have hsv : (step ctx Op.push).savedScopes =
        ⟨ctx.curScope, ctx.values.length⟩ :: ctx.savedScopes := rfl
    refine ⟨?_, ?_, ?_⟩
    · rw [hcur]
      omega
    · rw [hsv]
      intro c hcmem
      rcases List.mem_cons.mp hcmem with rfl | hcmem
      · exact h1
      · exact h2 c hcmem
    · rw [hlat]
      omega
  | pop sid2 =>
    by_cases hc : sid2 = ctx.curScope ∧ ctx.savedScopes ≠ []
    · obtain ⟨r, rest, hs⟩ := List.exists_cons_of_ne_nil hc.2
      have heq := popValueScope_pos ctx sid2 hc
      simp only [step, heq, hs, List.headI_cons, List.tail_cons]
      rw [hs] at h2
      exact ⟨h2 r (List.mem_cons_self r rest),
        fun c hcmem => h2 c (List.mem_cons_of_mem r hcmem), h3⟩
    · have heq := popValueScope_neg ctx sid2 hc
      simp only [step, heq]
      exact ⟨h1, h2, h3⟩

theorem notLive_run {V : Type} [Inhabited V] :
    ∀ (ops : List (Op V)) (ctx : V8GoContext V) (sid : Nat),
      NotLive sid ctx → ctx.latestScope + pushCount ops < scopeMod →
      NotLive sid (run ctx ops) := by
  intro ops
  induction ops with
  | nil => exact fun ctx sid h _ => h
  | cons op rest ih =>
    intro ctx sid h hroom
    rw [run_cons]
    cases op with
    | add v =>
      exact ih (step ctx (Op.add v)) sid
        (notLive_step ctx (Op.add v) sid h (fun heq => by cases heq))
        (by rw [step_latestScope_add]; exact hroom)
    | push =>
      have hpc : pushCount (Op.push :: rest) = pushCount rest + 1 := rfl
      rw [hpc] at hroom
      have h1 : ctx.latestScope + 1 < scopeMod := by omega
      have hmod : (ctx.latestScope + 1) % scopeMod = ctx.latestScope + 1 :=
        Nat.mod_eq_of_lt h1
      have hlat : (step ctx Op.push).latestScope = ctx.latestScope + 1 := by
        simp [step, pushValueScope, hmod]
      exact ih (step ctx Op.push) sid
        (notLive_step ctx Op.push sid h (fun _ => h1))
        (by rw [hlat]; omega)
    | pop sid2 =>
      exact ih (step ctx (Op.pop sid2)) sid
        (notLive_step ctx (Op.pop sid2) sid h (fun heq => by cases heq))
        (by rw [step_latestScope_pop]; exact hroom)

/-- C5 amended: as long as the number of `pushValueScope` calls over the
whole lifetime of the context stays at most `2^32 - 2` (so the 32-bit
epoch counter never wraps around): (a) every push returns an epoch
strictly greater than every epoch previously returned, and (b) once
`popValueScope sid` succeeds, every reference whose scope equals `sid`
fails `getValue` (obsolete diagnostic) in all subsequent states — no later
operation can make such a reference valid again. -/
theorem scope_ids_fresh {V : Type} [Inhabited V] :
    (∀ ops : List (Op V),
      pushCount ops + 2 ≤ scopeMod →
      (pushedIds initContext ops).Pairwise (· < ·)) ∧
    (∀ (ops1 : List (Op V)) (sid : Nat) (ops2 : List (Op V)) (r : ValueRef),
      pushCount ops1 + pushCount ops2 + 2 ≤ scopeMod →
      (popValueScope (run initContext ops1) sid).1 = true →
      r.scope = sid →
      getValue (run (popValueScope (run initContext ops1) sid).2 ops2) r = none) := by
  constructor
  · intro ops hops
    exact (pushedIds_mono ops initContext
      (by simp only [initContext]; omega)).2
  · intro ops1 sid ops2 r hops hpop hscope
    have hroom1 : (initContext : V8GoContext V).latestScope + pushCount ops1 < scopeMod := by
      simp only [initContext]
      omega
    have hinv := scopeInv_run ops1 initContext scopeInv_init hroom1
    by_cases hc : sid = (run initContext ops1).curScope ∧
        (run initContext ops1).savedScopes ≠ []
    · obtain ⟨cp, rest, hsv⟩ := List.exists_cons_of_ne_nil hc.2
      have heq := popValueScope_pos (run initContext ops1) sid hc
      obtain ⟨_, hlt, hle⟩ := hinv.1
      have hsid := hc.1
      have hnl : NotLive sid (popValueScope (run initContext ops1) sid).2 := by
        rw [heq]
        rw [hsv] at hlt
        refine ⟨?_, ?_, ?_⟩
        · show ((run initContext ops1).savedScopes.headI).scope ≠ sid
          rw [hsv, List.headI_cons]
          have := hlt cp (List.mem_cons_self cp rest)
          omega
        · show ∀ c ∈ (run initContext ops1).savedScopes.tail, c.scope ≠ sid
          rw [hsv, List.tail_cons]
          intro c hcmem
          have := hlt c (List.mem_cons_of_mem cp hcmem)
          omega
        · show sid ≤ (run initContext ops1).latestScope
          rw [hsid]
          exact hle
      have hlat2 : (popValueScope (run initContext ops1) sid).2.latestScope =
          (run initContext ops1).latestScope := by
        rw [heq]
      have hroom2 : (popValueScope (run initContext ops1) sid).2.latestScope +
          pushCount ops2 < scopeMod := by
        rw [hlat2, hinv.2]
        simp only [initContext]
        omega
      have hfinal := notLive_run ops2 (popValueScope (run initContext ops1) sid).2
        sid hnl hroom2
      obtain ⟨f1, f2, _⟩ := hfinal
      exact getValue_none_of_not_live _ r
        (by rw [hscope]; exact fun hmm => f1 hmm.symm)
        (by intro c hcmem; rw [hscope]; exact fun hmm => f2 c hcmem hmm.symm)
    · rw [popValueScope_neg (run initContext ops1) sid hc] at hpop
      cases hpop

/-- C5 amended, witness: two pushes return the strictly increasing ids
`[2, 3]`, and after `popValueScope 2` retires scope 2 the reference
`{2, 0}` resolves to the obsolete diagnostic. -/
theorem scope_ids_fresh_witness :
    (pushedIds (initContext : V8GoContext Nat) [Op.push, Op.push]).Pairwise (· < ·) ∧
    getValue
      (run (popValueScope (run (initContext : V8GoContext Nat) [Op.push]) 2).2 [])
      ⟨2, 0⟩ = none :=
  ⟨(scope_ids_fresh (V := Nat)).1 [Op.push, Op.push] (by norm_num [scopeMod, pushCount]),
    (scope_ids_fresh (V := Nat)).2 [Op.push] 2 [] ⟨2, 0⟩
      (by norm_num [scopeMod, pushCount]) (by decide) rfl⟩

/-! ## C7: round trip while the owning scope is still open -/

/-- `true` iff the trace, run from `ctx`, never performs a *successful*
pop of scope id `sid` — i.e. the scope that handed out `sid` is still
open at the end (a scope is closed exactly by the successful
`popValueScope` carrying its id, since pops only ever close the innermost
open scope). -/
def noSuccessfulPop {V : Type} [Inhabited V] (sid : Nat) :
    V8GoContext V → List (Op V) → Bool
  | _, [] => true
  | ctx, op :: rest =>
    (match op with
     | Op.pop s => !(s == sid && (popValueScope ctx s).1)
     | _ => true) && noSuccessfulPop sid (step ctx op) rest

/-- The slot `i`, inserted under scope `sc` when the checkpoint stack was
`C`, is still live: the stack is `D ++ C` for checkpoints `D` all saved at
lengths beyond `i`, the slot still holds `v`, and the scope recorded for
`i` is still `sc` (the saved scope of the outermost checkpoint of `D`, or
the current scope when `D` is empty). -/
def LiveSlot {V : Type} (C : List ValueRef) (sc i : Nat) (v : V)
    (t : V8GoContext V) : Prop :=
  i < t.values.length ∧ t.values[i]? = some v ∧
  ∃ D : List ValueRef, t.savedScopes = D ++ C ∧ (∀ c ∈ D, i < c.index) ∧
    (match D.getLast? with
     | some d => d.scope = sc
     | none => t.curScope = sc)

theorem liveSlot_step {V : Type} [Inhabited V] (C : List ValueRef) (sc i : Nat)
    (v : V) (ctx : V8GoContext V) (op : Op V) (h : LiveSlot C sc i v ctx)
    (hnp : ∀ s, op = Op.pop s → s = sc → (popValueScope ctx s).1 = false) :
    LiveSlot C sc i v (step ctx op) := by
  obtain ⟨hlen, hget, D, hD, hDidx, hDscope⟩ := h
  cases op with
  | add w =>
    refine ⟨?_, ?_, D, hD, hDidx, hDscope⟩
    · show i < (ctx.values ++ [w]).length
      simp only [List.length_append, List.length_singleton]
      omega
    · show (ctx.values ++ [w])[i]? = some v
      rw [List.getElem?_append_left hlen]
      exact hget
  | push =>
    refine ⟨hlen, hget, ⟨ctx.curScope, ctx.values.length⟩ :: D, ?_, ?_, ?_⟩
    · show ⟨ctx.curScope, ctx.values.length⟩ :: ctx.savedScopes =
        (⟨ctx.curScope, ctx.values.length⟩ :: D) ++ C
      rw [hD]
      rfl
    · intro c hcmem
      rcases List.mem_cons.mp hcmem with rfl | hcmem
      · exact hlen
      · exact hDidx c hcmem
    · match hDl : D, hDscope with
      | [], hsc => exact hsc
      | d :: D2, hsc =>
        rw [List.getLast?_cons_cons]
        exact hsc
  | pop s =>
    by_cases hc : s = ctx.curScope ∧ ctx.savedScopes ≠ []
    · have heq := popValueScope_pos ctx s hc
      match hDl : D, hD, hDidx, hDscope with
      | [], hD, hDidx, hDscope =>
        exfalso
        have hssc : s = sc := by
          rw [hc.1]
          simpa using hDscope
        have := hnp s rfl hssc
        rw [heq] at this
        cases this
      | d :: D2, hD, hDidx, hDscope =>
        have hhead : ctx.savedScopes.headI = d := by
          rw [hD]
          rfl
        have htail : ctx.savedScopes.tail = D2 ++ C := by
          rw [hD]
          rfl
        have hdi : i < d.index := hDidx d (List.mem_cons_self d D2)
        refine ⟨?_, ?_, D2, ?_, ?_, ?_⟩
        · show i < ((popValueScope ctx s).2).values.length
          rw [heq]
          show i < (resizeTo ctx.values ctx.savedScopes.headI.index).length
          rw [resizeTo_length, hhead]
          exact hdi
        · show ((popValueScope ctx s).2).values[i]? = some v
          rw [heq]
          show (resizeTo ctx.values ctx.savedScopes.headI.index)[i]? = some v
          rw [hhead, resizeTo_getElem? ctx.values d.index i hdi hlen]
          exact hget
        · show ((popValueScope ctx s).2).savedScopes = D2 ++ C
          rw [heq]
          exact htail
        · exact fun c hcmem => hDidx c (List.mem_cons_of_mem d hcmem)
        · match hD2 : D2 with
          | [] =>
            show ((popValueScope ctx s).2).curScope = sc
            rw [heq]
            show ctx.savedScopes.headI.scope = sc
            rw [hhead]
            simpa using hDscope
          | e :: D3 =>
            rw [List.getLast?_cons_cons] at hDscope
            exact hDscope
    · have heq := popValueScope_neg ctx s hc
      simp only [step, heq]
      exact ⟨hlen, hget, D, hD, hDidx, hDscope⟩

theorem liveSlot_run {V : Type} [Inhabited V] (C : List ValueRef) (sc i : Nat)
    (v : V) :
    ∀ (ops : List (Op V)) (ctx : V8GoContext V), LiveSlot C sc i v ctx →
      noSuccessfulPop sc ctx ops = true → LiveSlot C sc i v (run ctx ops) := by
  intro ops
  induction ops with
  | nil => exact fun ctx h _ => h
  | cons op rest ih =>
    intro ctx h hnp
    have hnp2 : noSuccessfulPop sc (step ctx op) rest = true ∧
        (∀ s, op = Op.pop s → s = sc → (popValueScope ctx s).1 = false) := by
      cases op with
      | add w =>
        refine ⟨?_, fun s hop => by cases hop⟩
        simpa [noSuccessfulPop] using hnp
      | push =>
        refine ⟨?_, fun s hop => by cases hop⟩
        simpa [noSuccessfulPop] using hnp
      | pop s2 =>
        rw [show noSuccessfulPop sc ctx (Op.pop s2 :: rest) =
            (!(s2 == sc && (popValueScope ctx s2).1) &&
              noSuccessfulPop sc (step ctx (Op.pop s2)) rest) from rfl,
          Bool.and_eq_true] at hnp
        refine ⟨hnp.2, ?_⟩
        intro s hop hssc
        injection hop with hop
        subst hop
        have h1 := hnp.1
        simp only [Bool.not_eq_true', Bool.and_eq_false_iff] at h1
        rcases h1 with h1 | h1
        · exfalso
          rw [beq_eq_false_iff_ne] at h1
          exact h1 hssc
        · exact h1
    rw [run_cons]
    exact ih (step ctx op) (liveSlot_step C sc i v ctx op h hnp2.2) hnp2.1

theorem scopeWalk_append_of (D C : List ValueRef) (cur i : Nat)
    (hD : ∀ c ∈ D, i < c.index) (hC : ∀ c ∈ C, c.index ≤ i) :
    scopeWalk (D ++ C) cur i =
      match D.getLast? with
      | some d => d.scope
      | none => cur := by
  induction D generalizing cur with
  | nil =>
    show scopeWalk C cur i = cur
    match C, hC with
    | [], _ => rfl
    | c :: rest, hC => exact if_pos (hC c (List.mem_cons_self c rest))
  | cons d D2 ih =>
    have hdi : i < d.index := hD d (List.mem_cons_self d D2)
    rw [show scopeWalk ((d :: D2) ++ C) cur i = scopeWalk (D2 ++ C) d.scope i from
        if_neg (by omega),
      ih d.scope (fun c hcmem => hD c (List.mem_cons_of_mem d hcmem))]
    match hD2 : D2 with
    | [] => rfl
    | e :: D3 =>
      rw [List.getLast?_cons_cons]
      cases hgl : (e :: D3).getLast? with
      | none => simp at hgl
      | some f => rfl

theorem liveSlot_getValue {V : Type} (C : List ValueRef) (sc i : Nat) (v : V)
    (t : V8GoContext V) (h : LiveSlot C sc i v t)
    (hC : ∀ c ∈ C, c.index ≤ i) :
    getValue t ⟨sc, i⟩ = some v := by
  obtain ⟨hlen, hget, D, hD, hDidx, hDscope⟩ := h
  have hM : (match D.getLast? with | some d => d.scope | none => t.curScope) = sc := by
    cases hgl : D.getLast? with
    | none =>
      rw [hgl] at hDscope
      simpa using hDscope
    | some e =>
      rw [hgl] at hDscope
      simpa using hDscope
  show (if i < t.values.length then
      if sc = scopeWalk t.savedScopes t.curScope i then t.values[i]? else none
    else none) = some v
  rw [if_pos hlen, hD, scopeWalk_append_of D C t.curScope i hDidx hC, hM,
    if_pos rfl]
  exact hget

/-- C7: for any reachable state, a value inserted by `addValue` resolves,
at any later point reached by further operations during which the
reference's scope has not been closed (no successful `popValueScope` with
that scope id — the only way a scope is ever closed), to exactly the
handle that was inserted. -/
theorem addValue_roundTrip {V : Type} [Inhabited V] (s0 : V8GoContext V)
    (h0 : Reachable s0) (v : V) (ops : List (Op V))
    (hopen : noSuccessfulPop (addValue s0 v).1.scope (addValue s0 v).2 ops = true) :
    getValue (run (addValue s0 v).2 ops) (addValue s0 v).1 = some v := by
  have hC : ∀ c ∈ s0.savedScopes, c.index ≤ s0.values.length :=
    (reachable_indexInv s0 h0).2
  have hbase : LiveSlot s0.savedScopes s0.curScope s0.values.length v (addValue s0 v).2 := by
    refine ⟨?_, ?_, [], rfl, by simp, rfl⟩
    · show s0.values.length < (s0.values ++ [v]).length
      simp
    · show (s0.values ++ [v])[s0.values.length]? = some v
      simp
  have hfin := liveSlot_run s0.savedScopes s0.curScope s0.values.length v ops
    (addValue s0 v).2 hbase hopen
  exact liveSlot_getValue s0.savedScopes s0.curScope s0.values.length v _ hfin hC

/-- C7 witness: insert `42` into a fresh context, then push a scope, add
another value inside it and pop it again (never popping scope 1): the
reference `{1, 0}` still resolves to `42`. -/
theorem addValue_roundTrip_witness :
    getValue
      (run (addValue (initContext : V8GoContext Nat) 42).2
        [Op.push, Op.add 7, Op.pop 2])
      (addValue (initContext : V8GoContext Nat) 42).1 = some 42 :=
  addValue_roundTrip initContext ⟨[], rfl⟩ 42 [Op.push, Op.add 7, Op.pop 2]
    (by decide)

end V8go
